import Mathlib

/-!
# Verification of `zh-export` (src/src/main.ts, src/src/utils.ts)

Shallow embedding of the extraction engine of the `zh-export` utility.

Conventions of the embedding:

* JavaScript strings are modelled as Lean `String` (sequences of Unicode code
  points).  All string indices (babel node `start`/`end` offsets, which are
  UTF-16 code-unit offsets in JavaScript) are modelled as code-point offsets;
  for source text without astral-plane characters the two coincide, and every
  concrete input used below is astral-free.  UTF-16 code units are produced
  explicitly where the source reads `charCodeAt` (see `utf16Units`).

* The module-level regex `zhReg = /[一-龥]/g` carries its `lastIndex`
  across calls because of the `g` flag.  `hasZhStr` tests each code point of
  its argument as a separate one- or two-code-unit string, so after a call
  that returned `true` the regex is left with `lastIndex = 1`, and the next
  `test` call necessarily fails and resets `lastIndex` to `0`.  The whole
  reachable regex state is therefore a single `Bool` (`true` iff
  `lastIndex = 1`), threaded explicitly through every function that calls
  `hasZhStr`.

* The external collaborators (esbuild's `transform`, `@babel/parser`'s
  `parse`, the vue SFC splitter, the file system) are passed in as values:
  a parse result is an `Except String Node`, a transpile result an
  `Except String String`.  The code of `main.ts` that reacts to those results
  is translated faithfully.

* Babel's AST is modelled by `Node`.  Lists of children are encoded with the
  two auxiliary constructors `seq` (sequencing of sibling subtrees) and
  `leaf` (no child); `seq`/`leaf` are pure containers, they are never visited
  as nodes themselves and never occur as operands in well-formed trees.
  `other` covers every node kind without a registered visitor (identifiers,
  calls, statements, ...); babel's `traverse` fires the `StringLiteral`,
  `TemplateLiteral` and `BinaryExpression` visitors in depth-first pre-order
  (node first, then its children left to right), which `visit` reproduces.
-/

/-- A character of the target script: the code of `zhReg`, `/[一-龥]/`.
All characters of that range are in the BMP (one UTF-16 unit each). -/
def isZh (c : Char) : Bool :=
  decide (0x4e00 ≤ c.toNat ∧ c.toNat ≤ 0x9fa5)

/-- One `zhReg.test(s)` call on the one-code-point string `s`, with
`st = true` iff `zhReg.lastIndex = 1` on entry.  With `lastIndex = 1` the
match attempt starts past every candidate position of a single code point
(a BMP char has length 1, and index 1 of a surrogate pair is a low
surrogate, outside the class), so it fails and resets `lastIndex` to `0`.
Returns (result, lastIndex-is-1 afterwards). -/
def zhTest (st : Bool) (c : Char) : Bool × Bool :=
  if st then (false, false)
  else if isZh c then (true, true) else (false, false)

/-- The loop body of `hasZhStr`: `for (const s of str) if (zhReg.test(s)) return true`. -/
def hasZhStrCore (st : Bool) : List Char → Bool × Bool
  | [] => (false, st)
  | c :: cs =>
    let p := zhTest st c
    if p.1 then (true, p.2) else hasZhStrCore p.2 cs

/-- `hasZhStr` of main.ts, with the `zhReg.lastIndex` state made explicit. -/
def hasZhStr (st : Bool) (s : String) : Bool × Bool :=
  hasZhStrCore st s.data

/-- `Array.prototype.filter` with the stateful `hasZhStr` as predicate
(the shape of `codes.filter((v) => hasZhStr(v))` and of the final
`.filter((v) => hasZhStr(v))` of `pickZhStrByAst`). -/
def filterZh (st : Bool) : List String → List String × Bool
  | [] => ([], st)
  | v :: vs =>
    let p := hasZhStr st v
    let r := filterZh p.2 vs
    (if p.1 then v :: r.1 else r.1, r.2)

/-- ECMAScript WhiteSpace or LineTerminator, the set removed by
`String.prototype.trim`. -/
def isJsWs (c : Char) : Bool :=
  decide (c.toNat = 0x9 ∨ c.toNat = 0xA ∨ c.toNat = 0xB ∨ c.toNat = 0xC ∨
    c.toNat = 0xD ∨ c.toNat = 0x20 ∨ c.toNat = 0xA0 ∨ c.toNat = 0x1680 ∨
    (0x2000 ≤ c.toNat ∧ c.toNat ≤ 0x200A) ∨ c.toNat = 0x2028 ∨
    c.toNat = 0x2029 ∨ c.toNat = 0x202F ∨ c.toNat = 0x205F ∨
    c.toNat = 0x3000 ∨ c.toNat = 0xFEFF)

/-- `String.prototype.trim`. -/
def jsTrim (s : String) : String :=
  ⟨((s.data.dropWhile isJsWs).reverse.dropWhile isJsWs).reverse⟩

/-- `String.prototype.substring(a, b)`: both arguments clamped to the
length, swapped when out of order.  (The JS arguments here are babel
offsets, hence never negative.) -/
def jsSubstring (s : String) (a b : Nat) : String :=
  let a' := min a s.data.length
  let b' := min b s.data.length
  ⟨(s.data.take (max a' b')).drop (min a' b')⟩

/-- `v.replace(rmREg, '')` where `rmREg = /(^\{\})|(\{\}$)/` — no `g` flag,
so only the first (leftmost) match is removed: a leading placeholder token
if the value starts with one, otherwise a trailing one if it ends with one. -/
def rmStrip (s : String) : String :=
  if s.data.take 2 = ['\x7b', '\x7d'] then ⟨s.data.drop 2⟩
  else if s.data.drop (s.data.length - 2) = ['\x7b', '\x7d'] then
    ⟨s.data.take (s.data.length - 2)⟩
  else s

/-- `node.quasis.map((v) => v.value.raw.trim()).join('{}')` of the
`TemplateLiteral` visitor, on the quasis' raw texts. -/
def tplJoin (quasis : List String) : String :=
  String.intercalate "\x7b\x7d" (quasis.map jsTrim)

/-- `Set.prototype.add` on a JS `Set<string>`, which preserves insertion
order: modelled as an append-if-new list. -/
def addStr (v : String) (l : List String) : List String :=
  if v ∈ l then l else l ++ [v]

/-- The babel AST shape used by `pickZhStrByAst`: string literals carry
their decoded `value`, template literals the raw texts of their `quasis`
plus the subtree of their interpolated expressions, binary expressions
their operator and operands, and `other` stands for any node kind without
a registered visitor, with the subtree of its children.  `seq`/`leaf`
encode child lists and are never themselves visited. -/
inductive Node where
  | str (s e : Nat) (value : String)
  | tpl (s e : Nat) (quasis : List String) (exprs : Node)
  | bin (s e : Nat) (op : String) (l r : Node)
  | other (s e : Nat) (children : Node)
  | seq (a b : Node)
  | leaf
  deriving DecidableEq, Repr

/-- The `(start, end)` range of a node (the only node data `hasUsedSet`
and `pushUsed` inspect). -/
def rangeOf : Node → Nat × Nat
  | .str s e _ => (s, e)
  | .tpl s e _ _ => (s, e)
  | .bin s e _ _ _ => (s, e)
  | .other s e _ => (s, e)
  | .seq _ _ => (0, 0)
  | .leaf => (0, 0)

/-- `usedNodes.some((v) => v.start === node.start && v.end === node.end)`. -/
def hasUsedSet (r : Nat × Nat) (used : List (Nat × Nat)) : Bool :=
  used.any (fun v => v.1 = r.1 && v.2 = r.2)

/-- `pushUsed`: append the node's range unless an entry with the same
exact range is already present. -/
def pushUsed (r : Nat × Nat) (used : List (Nat × Nat)) : List (Nat × Nat) :=
  if hasUsedSet r used then used else used ++ [r]

/-- `flatBinaryExpression` of main.ts, polymorphic in the state the
`pushUsed` callback acts on (the source passes the closure `pushUsed`).
It claims every `'+'` binary node it descends through, and returns the
non-`'+'` leaves left to right. -/
def flatBinaryExpression {σ : Type} (push : Node → σ → σ) : Node → σ → List Node × σ
  | .bin s e op l r, u =>
    if op = "+" then
      let u1 := push (.bin s e op l r) u
      let lr := flatBinaryExpression push l u1
      let rr := flatBinaryExpression push r lr.2
      (lr.1 ++ rr.1, rr.2)
    else ([.bin s e op l r], u)
  | n, u => ([n], u)

/-- The body of the `.map` over the flattened leaves inside the
`BinaryExpression` visitor: a template literal is claimed and contributes
its placeholder-joined quasis, a string literal is claimed and contributes
its trimmed value, anything else contributes one placeholder token. -/
def leafText : Node → List (Nat × Nat) → String × List (Nat × Nat)
  | .tpl s e quasis _, u => (tplJoin quasis, pushUsed (s, e) u)
  | .str s e v, u => (jsTrim v, pushUsed (s, e) u)
  | _, u => ("\x7b\x7d", u)

/-- The traversal state of one `pickZhStrByAst` call: the claimed ranges
(`usedNodes`), the candidate set (`zhStrSet`, insertion-ordered), and the
`zhReg.lastIndex` state. -/
structure PickSt where
  used : List (Nat × Nat)
  strs : List String
  zh : Bool
  deriving DecidableEq, Repr

/-- The `StringLiteral` visitor. -/
def visitStrNode (s e : Nat) (v : String) (st : PickSt) : PickSt :=
  if hasUsedSet (s, e) st.used then st
  else ⟨pushUsed (s, e) st.used, addStr (jsTrim v) st.strs, st.zh⟩

/-- The `TemplateLiteral` visitor. -/
def visitTplNode (s e : Nat) (quasis : List String) (st : PickSt) : PickSt :=
  if hasUsedSet (s, e) st.used then st
  else ⟨pushUsed (s, e) st.used, addStr (tplJoin quasis) st.strs, st.zh⟩

/-- The `BinaryExpression` visitor: skip if claimed, claim, throw when
`start` or `end` is falsy (offset `0`), and for a `'+'` expression whose
raw source span passes `hasZhStr`, flatten it, claim the literal leaves,
and add the joined leaf texts as one candidate. -/
def visitBinNode (code : String) (s e : Nat) (op : String) (l r : Node)
    (st : PickSt) : Except String PickSt :=
  if hasUsedSet (s, e) st.used then .ok st
  else
    let u1 := pushUsed (s, e) st.used
    if s = 0 ∨ e = 0 then .error "node.start or node.end is undefined"
    else if op = "+" then
      let p := hasZhStr st.zh (jsSubstring code s e)
      if p.1 then
        let fr := flatBinaryExpression (fun m u => pushUsed (rangeOf m) u)
          (.bin s e op l r) u1
        let tr := fr.1.foldl
          (fun acc m =>
            let t := leafText m acc.2
            (acc.1 ++ t.1, t.2))
          ("", fr.2)
        .ok ⟨tr.2, addStr tr.1 st.strs, p.2⟩
      else .ok ⟨u1, st.strs, p.2⟩
    else .ok ⟨u1, st.strs, st.zh⟩

/-- Babel's depth-first pre-order traversal with the three visitors of
`pickZhStrByAst`: the visitor of a node runs first, then its children are
traversed left to right (a thrown error aborts the whole traversal). -/
def visit (code : String) : Node → PickSt → Except String PickSt
  | .leaf, st => .ok st
  | .seq a b, st =>
    match visit code a st with
    | .error msg => .error msg
    | .ok st1 => visit code b st1
  | .str s e v, st => .ok (visitStrNode s e v st)
  | .tpl s e quasis exprs, st => visit code exprs (visitTplNode s e quasis st)
  | .bin s e op l r, st =>
    match visitBinNode code s e op l r st with
    | .error msg => .error msg
    | .ok st1 =>
      match visit code l st1 with
      | .error msg => .error msg
      | .ok st2 => visit code r st2
  | .other _ _ children, st => visit code children st

/-- `pickZhStrByAst` of main.ts: parse (external, result passed in),
traverse, then `Array.from(zhStrSet).filter(hasZhStr).map((v) =>
v.trim().replace(rmREg, '')).filter(Boolean)`.  Returns the result list
together with the `zhReg.lastIndex` state left behind. -/
def pickZhStrByAst (st0 : Bool) (code : String) (parsed : Except String Node) :
    Except String (List String × Bool) :=
  match parsed with
  | .error msg => .error msg
  | .ok root =>
    match visit code root ⟨[], [], st0⟩ with
    | .error msg => .error msg
    | .ok st =>
      let f := filterZh st.zh st.strs
      .ok ((f.1.map (fun v => rmStrip (jsTrim v))).filter (fun v => v != ""), f.2)

/-! ## Key generation (`getStrHashCode`, `getKeyFromStr`) -/

/-- ECMAScript `ToInt32`: reduce an integer to the signed 32-bit range. -/
def toInt32 (n : Int) : Int :=
  (n + 2147483648) % 4294967296 - 2147483648

/-- The UTF-16 code units of a string, in order (`charCodeAt` values). -/
def utf16Units (s : String) : List Nat :=
  (s.data.map (fun c =>
    if c.toNat < 0x10000 then [c.toNat]
    else [0xD800 + (c.toNat - 0x10000) / 0x400,
          0xDC00 + (c.toNat - 0x10000) % 0x400])).flatten

/-- One step of the hash loop: `hash = (hash << 5) - hash + char; hash |= 0`.
`hash` is already an int32, so `hash << 5` wraps to `toInt32 (hash * 32)`;
the subtraction and addition are exact in doubles, and `|= 0` reduces the
result to int32 again. -/
def hashStep (h : Int) (c : Nat) : Int :=
  toInt32 (toInt32 (h * 32) - h + c)

/-- `getStrHashCode` of main.ts (the empty string short-circuits to `0`,
which the fold also yields). -/
def getStrHashCode (s : String) : Int :=
  (utf16Units s).foldl hashStep 0

/-- The character table of Node's `base64url` after `.replaceAll('-', '_')`:
index 62 (`'-'` in base64url) and index 63 (`'_'`) both print `'_'`. -/
def b64Char (i : Nat) : Char :=
  if i < 26 then Char.ofNat (65 + i)
  else if i < 52 then Char.ofNat (97 + (i - 26))
  else if i < 62 then Char.ofNat (48 + (i - 52))
  else '_'

/-- The unsigned value of the int32 `n` (the bytes of
`new Int32Array([code]).buffer`, read as one little-endian 32-bit word). -/
def toUInt32 (n : Int) : Nat :=
  (n % 4294967296).toNat

/-- The six characters of `Buffer.from(...).toString('base64url')
.replaceAll('-', '_')` on the four little-endian bytes of `code`. -/
def keyChars (code : Int) : List Char :=
  let u := toUInt32 code
  let b0 := u % 256
  let b1 := u / 256 % 256
  let b2 := u / 65536 % 256
  let b3 := u / 16777216 % 256
  [b64Char (b0 / 4), b64Char (b0 % 4 * 16 + b1 / 16),
   b64Char (b1 % 16 * 4 + b2 / 64), b64Char (b2 % 64),
   b64Char (b3 / 4), b64Char (b3 % 4 * 16)]

/-- `Number.isInteger(Number(a[0]))` for a character of the key alphabet
`[A-Za-z0-9_]`: `Number` of a one-character string yields an integer
exactly for the decimal digits `'0'..'9'` (letters and `'_'` give `NaN`). -/
def numParsesAsInt (c : Char) : Bool :=
  decide (48 ≤ c.toNat ∧ c.toNat ≤ 57)

/-- `getKeyFromStr` of main.ts. -/
def getKeyFromStr (s : String) : String :=
  let a := keyChars (getStrHashCode s)
  if numParsesAsInt (a.headI) then ⟨'_' :: a⟩ else ⟨a⟩

/-! ### Spec-side key generator, written from the words of the spec:
"compute a 32-bit signed hash via repeated `hash = hash*31 + charCode`
over UTF-16 code units with 32-bit wraparound; encode the 4 bytes of that
integer (little-endian) using a URL-safe base64 alphabet where `-` is
replaced by `_`; if the resulting first character is a decimal digit,
prefix the whole token with `_`". -/

/-- Spec-side hash: `hash = hash*31 + charCode` with 32-bit wraparound. -/
def hashSpec (s : String) : Int :=
  (utf16Units s).foldl (fun h (c : Nat) => toInt32 (31 * h + c)) 0

/-- The URL-safe base64 alphabet (RFC 4648 §5): `-` at 62, `_` at 63. -/
def b64UrlChar (i : Nat) : Char :=
  if i < 26 then Char.ofNat (65 + i)
  else if i < 52 then Char.ofNat (97 + (i - 26))
  else if i < 62 then Char.ofNat (48 + (i - 52))
  else if i = 62 then '-'
  else '_'

/-- Unpadded base64url of a byte list: groups of three bytes become four
six-bit characters, a trailing group of one or two bytes becomes two or
three characters. -/
def b64UrlEncode : List Nat → List Char
  | [] => []
  | [b0] => [b64UrlChar (b0 / 4), b64UrlChar (b0 % 4 * 16)]
  | [b0, b1] => [b64UrlChar (b0 / 4), b64UrlChar (b0 % 4 * 16 + b1 / 16),
                 b64UrlChar (b1 % 16 * 4)]
  | b0 :: b1 :: b2 :: rest =>
    b64UrlChar (b0 / 4) :: b64UrlChar (b0 % 4 * 16 + b1 / 16) ::
    b64UrlChar (b1 % 16 * 4 + b2 / 64) :: b64UrlChar (b2 % 64) ::
    b64UrlEncode rest

/-- The four bytes of an int32, little-endian. -/
def leBytes32 (n : Int) : List Nat :=
  [toUInt32 n % 256, toUInt32 n / 256 % 256,
   toUInt32 n / 65536 % 256, toUInt32 n / 16777216 % 256]

/-- Spec-side decimal-digit test. -/
def isDecDigit (c : Char) : Bool :=
  decide ('0' ≤ c ∧ c ≤ '9')

/-- Spec-side key generator. -/
def getKeyFromStrSpec (s : String) : String :=
  let a := (b64UrlEncode (leBytes32 (hashSpec s))).map
    (fun c => if c = '-' then '_' else c)
  if isDecDigit (a.headI) then ⟨'_' :: a⟩ else ⟨a⟩

/-! ## Lemmas about the key generator -/

theorem toInt32_add_left (a b : Int) : toInt32 (toInt32 a + b) = toInt32 (a + b) := by
  unfold toInt32
  omega

theorem toInt32_sub_add (a b c : Int) :
    toInt32 (toInt32 a - b + c) = toInt32 (a - b + c) := by
  unfold toInt32
  omega

theorem hashStep_eq (h : Int) (c : Nat) : hashStep h c = toInt32 (31 * h + c) := by
  unfold hashStep
  rw [toInt32_sub_add]
  ring_nf

theorem foldl_hashStep_eq (us : List Nat) (h0 : Int) :
    us.foldl hashStep h0 = us.foldl (fun h (c : Nat) => toInt32 (31 * h + c)) h0 := by
  induction us generalizing h0 with
  | nil => rfl
  | cons u us ih => simp only [List.foldl_cons, hashStep_eq, ih]

theorem getStrHashCode_eq_spec (s : String) : getStrHashCode s = hashSpec s := by
  unfold getStrHashCode hashSpec
  exact foldl_hashStep_eq _ _

theorem b64Char_eq_table (i : Nat) (h : i < 64) :
    b64Char i = (if b64UrlChar i = '-' then '_' else b64UrlChar i) := by
  revert h
  revert i
  decide

theorem keyChars_eq_spec (n : Int) :
    keyChars n = (b64UrlEncode (leBytes32 n)).map (fun c => if c = '-' then '_' else c) := by
  unfold keyChars leBytes32 b64UrlEncode
  have h0 : toUInt32 n % 256 < 256 := Nat.mod_lt _ (by norm_num)
  have h1 : toUInt32 n / 256 % 256 < 256 := Nat.mod_lt _ (by norm_num)
  have h2 : toUInt32 n / 65536 % 256 < 256 := Nat.mod_lt _ (by norm_num)
  have h3 : toUInt32 n / 16777216 % 256 < 256 := Nat.mod_lt _ (by norm_num)
  simp only [List.map_cons, List.map_nil]
  rw [b64Char_eq_table _ (by omega), b64Char_eq_table _ (by omega),
    b64Char_eq_table _ (by omega), b64Char_eq_table _ (by omega),
    b64Char_eq_table _ (by omega), b64Char_eq_table _ (by omega)]
  simp only [b64UrlEncode, List.map_cons, List.map_nil]

theorem numParsesAsInt_eq_isDecDigit (c : Char) : numParsesAsInt c = isDecDigit c := by
  unfold numParsesAsInt isDecDigit
  rw [decide_eq_decide]
  constructor
  · rintro ⟨h1, h2⟩
    exact ⟨Char.le_def.mpr (by simpa [Char.toNat] using h1),
           Char.le_def.mpr (by simpa [Char.toNat] using h2)⟩
  · rintro ⟨h1, h2⟩
    exact ⟨by simpa [Char.toNat] using Char.le_def.mp h1,
           by simpa [Char.toNat] using Char.le_def.mp h2⟩

/-- A character of the set `[A-Za-z0-9_]`. -/
def isKeyChar (c : Char) : Bool :=
  decide (('A' ≤ c ∧ c ≤ 'Z') ∨ ('a' ≤ c ∧ c ≤ 'z') ∨ ('0' ≤ c ∧ c ≤ '9') ∨ c = '_')

theorem b64Char_isKeyChar (i : Nat) (h : i < 64) : isKeyChar (b64Char i) = true := by
  revert h
  revert i
  decide

theorem b64Char_not_underscore_digit (i : Nat) (h : i < 64) :
    (isDecDigit (b64Char i) = true) = (52 ≤ i ∧ i < 62) := by
  revert h
  revert i
  decide

theorem keyChars_length (n : Int) : (keyChars n).length = 6 := by
  unfold keyChars
  rfl

theorem keyChars_mem_isKeyChar (n : Int) (c : Char) (h : c ∈ keyChars n) :
    isKeyChar c = true := by
  have h0 : toUInt32 n % 256 < 256 := Nat.mod_lt _ (by norm_num)
  have h1 : toUInt32 n / 256 % 256 < 256 := Nat.mod_lt _ (by norm_num)
  have h2 : toUInt32 n / 65536 % 256 < 256 := Nat.mod_lt _ (by norm_num)
  have h3 : toUInt32 n / 16777216 % 256 < 256 := Nat.mod_lt _ (by norm_num)
  unfold keyChars at h
  simp only [List.mem_cons, List.not_mem_nil, or_false] at h
  rcases h with h | h | h | h | h | h <;>
    exact h ▸ b64Char_isKeyChar _ (by omega)

/-- Claim C5: key generation is deterministic (`getKeyFromStr` is a pure
function of the string, so equal inputs give equal keys), and it refines
the spec's description: the 32-bit signed polynomial rolling hash
`hash = hash*31 + charCode` over UTF-16 code units, encoded as unpadded
URL-safe base64 of the hash's four little-endian bytes with `-` replaced
by `_`, with a `_` prefix exactly when the first character is a decimal
digit.  Stated as: the source translation equals the generator written
from the spec's words. -/
theorem c5_key_deterministic_and_spec (s : String) :
    getKeyFromStr s = getKeyFromStrSpec s := by
  simp only [getKeyFromStr, getKeyFromStrSpec, getStrHashCode_eq_spec,
    ← keyChars_eq_spec, numParsesAsInt_eq_isDecDigit]

/-- Claim C10: every generated key is 6 characters long, or 7 when the
`_` prefix is added; all its characters are in `[A-Za-z0-9_]`; and it
never begins with a decimal digit. -/
theorem c10_key_shape (s : String) :
    ((getKeyFromStr s).length = 6 ∨ (getKeyFromStr s).length = 7) ∧
    (∀ c ∈ (getKeyFromStr s).data, isKeyChar c = true) ∧
    isDecDigit ((getKeyFromStr s).data.headI) = false := by
  simp only [getKeyFromStr]
  by_cases hd : numParsesAsInt ((keyChars (getStrHashCode s)).headI) = true
  · rw [if_pos hd]
    refine ⟨Or.inr ?_, ?_, ?_⟩
    · show ('_' :: keyChars (getStrHashCode s)).length = 7
      rw [List.length_cons, keyChars_length]
    · intro c hc
      rcases List.mem_cons.mp hc with h | h
      · subst h
        decide
      · exact keyChars_mem_isKeyChar _ _ h
    · exact (show isDecDigit '_' = false by decide)
  · rw [if_neg hd]
    refine ⟨Or.inl (keyChars_length _), fun c hc => keyChars_mem_isKeyChar _ _ hc, ?_⟩
    rw [← numParsesAsInt_eq_isDecDigit]
    exact eq_false_of_ne_true hd

/-! ## Lemmas about the claimed-node collection -/

theorem hasUsedSet_iff (r : Nat × Nat) (u : List (Nat × Nat)) :
    hasUsedSet r u = true ↔ r ∈ u := by
  unfold hasUsedSet
  simp only [List.any_eq_true, Bool.and_eq_true, decide_eq_true_eq]
  constructor
  · rintro ⟨v, hv, h1, h2⟩
    rwa [show v = r from Prod.ext h1 h2] at hv
  · intro h
    exact ⟨r, h, rfl, rfl⟩

theorem pushUsed_of_mem {r : Nat × Nat} {u : List (Nat × Nat)} (h : r ∈ u) :
    pushUsed r u = u := by
  unfold pushUsed
  rw [if_pos ((hasUsedSet_iff r u).mpr h)]

theorem mem_pushUsed_self (r : Nat × Nat) (u : List (Nat × Nat)) :
    r ∈ pushUsed r u := by
  unfold pushUsed
  by_cases h : hasUsedSet r u = true
  · rw [if_pos h]
    exact (hasUsedSet_iff r u).mp h
  · rw [if_neg h]
    exact List.mem_append_right _ (List.mem_singleton.mpr rfl)

theorem mem_pushUsed_of_mem {x r : Nat × Nat} {u : List (Nat × Nat)} (h : x ∈ u) :
    x ∈ pushUsed r u := by
  unfold pushUsed
  by_cases hc : hasUsedSet r u = true
  · rwa [if_pos hc]
  · rw [if_neg hc]
    exact List.mem_append_left _ h

theorem hasUsedSet_pushUsed_self (r : Nat × Nat) (u : List (Nat × Nat)) :
    hasUsedSet r (pushUsed r u) = true :=
  (hasUsedSet_iff _ _).mpr (mem_pushUsed_self r u)

theorem pushUsed_nodup {u : List (Nat × Nat)} (r : Nat × Nat) (h : u.Nodup) :
    (pushUsed r u).Nodup := by
  unfold pushUsed
  by_cases hc : hasUsedSet r u = true
  · rwa [if_pos hc]
  · rw [if_neg hc]
    refine List.Nodup.append h (List.nodup_singleton r) ?_
    intro x hx hr
    rw [List.mem_singleton.mp hr] at hx
    exact hc ((hasUsedSet_iff r u).mpr hx)

theorem leafText_nodup (m : Node) {u : List (Nat × Nat)} (h : u.Nodup) :
    ((leafText m u).2).Nodup := by
  cases m <;> first
    | exact h
    | exact pushUsed_nodup _ h

theorem flat_pushUsed_nodup (n : Node) :
    ∀ u : List (Nat × Nat), u.Nodup →
      ((flatBinaryExpression (fun m u => pushUsed (rangeOf m) u) n u).2).Nodup := by
  induction n with
  | bin s e op l r ihl ihr =>
    intro u h
    unfold flatBinaryExpression
    by_cases hop : op = "+"
    · rw [if_pos hop]
      exact ihr _ (ihl _ (pushUsed_nodup _ h))
    · rw [if_neg hop]
      exact h
  | _ =>
    intro u h
    exact h

theorem foldl_leafText_nodup (ls : List Node) :
    ∀ (acc : String × List (Nat × Nat)), acc.2.Nodup →
      ((ls.foldl (fun acc m => let t := leafText m acc.2; (acc.1 ++ t.1, t.2)) acc).2).Nodup := by
  induction ls with
  | nil => exact fun _ h => h
  | cons m ms ih =>
    intro acc h
    simp only [List.foldl_cons]
    exact ih _ (leafText_nodup m h)

theorem visitBinNode_nodup {code : String} {s e : Nat} {op : String} {l r : Node}
    {st st' : PickSt} (h : st.used.Nodup)
    (hok : visitBinNode code s e op l r st = .ok st') : st'.used.Nodup := by
  unfold visitBinNode at hok
  by_cases hu : hasUsedSet (s, e) st.used = true
  · rw [if_pos hu] at hok
    cases hok
    exact h
  · rw [if_neg hu] at hok
    by_cases hz : s = 0 ∨ e = 0
    · rw [if_pos hz] at hok
      cases hok
    · rw [if_neg hz] at hok
      by_cases hop : op = "+"
      · rw [if_pos hop] at hok
        by_cases hzh : (hasZhStr st.zh (jsSubstring code s e)).1 = true
        · rw [if_pos hzh] at hok
          cases hok
          exact foldl_leafText_nodup _ _ (flat_pushUsed_nodup _ _ (pushUsed_nodup _ h))
        · rw [if_neg hzh] at hok
          cases hok
          exact pushUsed_nodup _ h
      · rw [if_neg hop] at hok
        cases hok
        exact pushUsed_nodup _ h

theorem visitStrNode_nodup {s e : Nat} {v : String} {st : PickSt}
    (h : st.used.Nodup) : (visitStrNode s e v st).used.Nodup := by
  unfold visitStrNode
  by_cases hu : hasUsedSet (s, e) st.used = true
  · rwa [if_pos hu]
  · rw [if_neg hu]
    exact pushUsed_nodup _ h

theorem visitTplNode_nodup {s e : Nat} {quasis : List String} {st : PickSt}
    (h : st.used.Nodup) : (visitTplNode s e quasis st).used.Nodup := by
  unfold visitTplNode
  by_cases hu : hasUsedSet (s, e) st.used = true
  · rwa [if_pos hu]
  · rw [if_neg hu]
    exact pushUsed_nodup _ h

theorem visit_nodup (code : String) (n : Node) :
    ∀ st st' : PickSt, st.used.Nodup → visit code n st = .ok st' → st'.used.Nodup := by
  induction n with
  | str s e v =>
    intro st st' h hok
    unfold visit at hok
    cases hok
    exact visitStrNode_nodup h
  | tpl s e quasis exprs ih =>
    intro st st' h hok
    unfold visit at hok
    exact ih _ _ (visitTplNode_nodup h) hok
  | bin s e op l r ihl ihr =>
    intro st st' h hok
    unfold visit at hok
    split at hok
    next => exact Except.noConfusion hok
    next st1 hb =>
      split at hok
      next => exact Except.noConfusion hok
      next st2 hl => exact ihr _ _ (ihl _ _ (visitBinNode_nodup h hb) hl) hok
  | other s e children ih =>
    intro st st' h hok
    unfold visit at hok
    exact ih _ _ h hok
  | seq a b iha ihb =>
    intro st st' h hok
    unfold visit at hok
    split at hok
    next => exact Except.noConfusion hok
    next st1 ha => exact ihb _ _ (iha _ _ h ha) hok
  | leaf =>
    intro st st' h hok
    unfold visit at hok
    cases hok
    exact h

/-- Claim C8: throughout one extraction call, the claimed-node collection
never holds two entries with the same `(start, end)` range: `pushUsed` on
a node whose exact range is present leaves the collection unchanged,
after `pushUsed` the membership test `hasUsedSet` holds, and the
traversal (every step of which goes through `pushUsed`) preserves
duplicate-freeness of the collection, which starts empty. -/
theorem c8_claimed_set_invariant :
    (∀ (r : Nat × Nat) (u : List (Nat × Nat)), hasUsedSet r u = true → pushUsed r u = u) ∧
    (∀ (r : Nat × Nat) (u : List (Nat × Nat)), hasUsedSet r (pushUsed r u) = true) ∧
    (∀ (code : String) (n : Node) (st st' : PickSt),
      st.used.Nodup → visit code n st = .ok st' → st'.used.Nodup) :=
  ⟨fun r u h => pushUsed_of_mem ((hasUsedSet_iff r u).mp h),
   hasUsedSet_pushUsed_self,
   fun code n st st' h hok => visit_nodup code n st st' h hok⟩

/-- Witness for C8 at concrete inputs. -/
theorem c8_claimed_set_invariant_witness :
    pushUsed (1, 2) [(1, 2)] = [(1, 2)] ∧
    hasUsedSet (3, 4) (pushUsed (3, 4) []) = true ∧
    (PickSt.mk [(1, 2), (3, 4)] [] false).used.Nodup :=
  ⟨c8_claimed_set_invariant.1 (1, 2) [(1, 2)] (by decide),
   c8_claimed_set_invariant.2.1 (3, 4) [],
   c8_claimed_set_invariant.2.2 "x" .leaf ⟨[(1, 2), (3, 4)], [], false⟩
     ⟨[(1, 2), (3, 4)], [], false⟩ (by decide) rfl⟩

/-! ## Lemmas about `flatBinaryExpression` -/

/-- A binary `'+'` expression (`t.isBinaryExpression(node) && node.operator === '+'`). -/
def isPlusBin : Node → Bool
  | .bin _ _ op _ _ => decide (op = "+")
  | _ => false

/-- The leaves of the `'+'` spine of a node, left to right (the
depth-first left-then-right flattening order of the spec). -/
def spineLeaves : Node → List Node
  | .bin s e op l r =>
    if op = "+" then spineLeaves l ++ spineLeaves r else [.bin s e op l r]
  | n => [n]

/-- The intermediate `'+'` nodes of the spine, in the order
`flatBinaryExpression` pushes them (node, then left spine, then right). -/
def plusSpine : Node → List Node
  | .bin s e op l r =>
    if op = "+" then .bin s e op l r :: (plusSpine l ++ plusSpine r) else []
  | _ => []

theorem flat_fst_eq_spineLeaves {σ : Type} (push : Node → σ → σ) (n : Node) :
    ∀ u : σ, (flatBinaryExpression push n u).1 = spineLeaves n := by
  induction n with
  | bin s e op l r ihl ihr =>
    intro u
    unfold flatBinaryExpression spineLeaves
    by_cases hop : op = "+"
    · rw [if_pos hop, if_pos hop]
      simp only [ihl, ihr]
    · rw [if_neg hop, if_neg hop]
  | _ => intro u; rfl

theorem flat_trace_eq_plusSpine (n : Node) :
    ∀ tr : List Node,
      (flatBinaryExpression (fun m tr => tr ++ [m]) n tr).2 = tr ++ plusSpine n := by
  induction n with
  | bin s e op l r ihl ihr =>
    intro tr
    unfold flatBinaryExpression plusSpine
    by_cases hop : op = "+"
    · rw [if_pos hop, if_pos hop]
      simp only [ihl, ihr, List.append_assoc, List.cons_append, List.singleton_append,
        List.nil_append]
    · rw [if_neg hop, if_neg hop]
      simp
  | _ => intro tr; simp [flatBinaryExpression, plusSpine]

theorem spineLeaves_ne_nil (n : Node) : spineLeaves n ≠ [] := by
  induction n with
  | bin s e op l r ihl ihr =>
    unfold spineLeaves
    by_cases hop : op = "+"
    · rw [if_pos hop]
      exact fun h => ihl (List.append_eq_nil.mp h).1
    · rw [if_neg hop]
      exact List.cons_ne_nil _ _
  | _ => exact List.cons_ne_nil _ _

theorem spineLeaves_not_plus (n : Node) :
    ∀ m ∈ spineLeaves n, isPlusBin m = false := by
  induction n with
  | bin s e op l r ihl ihr =>
    unfold spineLeaves
    by_cases hop : op = "+"
    · rw [if_pos hop]
      intro m hm
      rcases List.mem_append.mp hm with h | h
      · exact ihl m h
      · exact ihr m h
    · rw [if_neg hop]
      intro m hm
      rw [List.mem_singleton.mp hm]
      unfold isPlusBin
      exact decide_eq_false hop
  | str s e v =>
    intro m hm
    rw [List.mem_singleton.mp hm]
    rfl
  | tpl s e quasis exprs ih =>
    intro m hm
    rw [List.mem_singleton.mp hm]
    rfl
  | other s e children ih =>
    intro m hm
    rw [List.mem_singleton.mp hm]
    rfl
  | seq a b iha ihb =>
    intro m hm
    rw [List.mem_singleton.mp hm]
    rfl
  | leaf =>
    intro m hm
    rw [List.mem_singleton.mp hm]
    rfl

theorem flat_of_not_plus {σ : Type} (push : Node → σ → σ) {n : Node}
    (h : isPlusBin n = false) (u : σ) : flatBinaryExpression push n u = ([n], u) := by
  cases n with
  | bin s e op l r =>
    unfold isPlusBin at h
    unfold flatBinaryExpression
    rw [if_neg (of_decide_eq_false h)]
  | _ => rfl

/-- Claim C9: `flatBinaryExpression` returns a non-empty list of leaves in
left-to-right source order (the depth-first flattening `spineLeaves`),
none of which is a binary `'+'` expression, independently of the claim
callback; on a non-`'+'` node it returns exactly that node and invokes
the callback on nothing (the callback trace stays empty); and on a `'+'`
expression it claims every intermediate `'+'` node of the spine exactly
once, in descent order. -/
theorem c9_flatBinaryExpression_shape {σ : Type} (push : Node → σ → σ) (n : Node) (u : σ) :
    (flatBinaryExpression push n u).1 = spineLeaves n ∧
    spineLeaves n ≠ [] ∧
    (∀ m ∈ spineLeaves n, isPlusBin m = false) ∧
    (isPlusBin n = false → flatBinaryExpression push n u = ([n], u)) ∧
    (flatBinaryExpression (fun m tr => tr ++ [m]) n []).2 = plusSpine n ∧
    ((plusSpine n).Nodup → ∀ m ∈ plusSpine n,
      (flatBinaryExpression (fun m tr => tr ++ [m]) n []).2.count m = 1) := by
  refine ⟨flat_fst_eq_spineLeaves push n u, spineLeaves_ne_nil n,
    spineLeaves_not_plus n, fun h => flat_of_not_plus push h u,
    by rw [flat_trace_eq_plusSpine n []]; rfl, ?_⟩
  intro hnd m hm
  rw [flat_trace_eq_plusSpine n [], List.nil_append]
  exact List.count_eq_one_of_mem hnd hm

/-- Witness for C9 at a concrete `'+'` chain `("a" + "b") + x`. -/
theorem c9_flatBinaryExpression_shape_witness :
    (flatBinaryExpression (fun _ u => u) (.bin 1 10 "+" (.bin 1 6 "+" (.str 1 3 "a")
      (.str 4 6 "b")) (.other 9 10 .leaf)) 0).1 =
      [.str 1 3 "a", .str 4 6 "b", .other 9 10 .leaf] ∧
    (plusSpine (.bin 1 10 "+" (.bin 1 6 "+" (.str 1 3 "a") (.str 4 6 "b"))
      (.other 9 10 .leaf))).Nodup := by
  have h := c9_flatBinaryExpression_shape (fun (_ : Node) (u : Nat) => u)
    (.bin 1 10 "+" (.bin 1 6 "+" (.str 1 3 "a") (.str 4 6 "b")) (.other 9 10 .leaf)) 0
  have hnd : (plusSpine (.bin 1 10 "+" (.bin 1 6 "+" (.str 1 3 "a") (.str 4 6 "b"))
      (.other 9 10 .leaf))).Nodup := by decide
  have hcount := h.2.2.2.2.2 hnd
  exact ⟨by rw [h.1]; rfl, hnd⟩

/-! ## Concrete programs used as evaluation inputs -/

/-- The unit `"你";` — a lone string-literal expression statement. -/
def c2Code : String := "\"你\";"

/-- Babel tree of `c2Code`: expression statement wrapping the literal at
range `[0, 3)`. -/
def c2Root : Node := .other 0 4 (.str 0 3 "你")

/-- Claim C2 evaluation: extraction is not deterministic across
consecutive invocations.  A first run of `pickZhStrByAst` on `"你";`
(fresh module state, `zhReg.lastIndex = 0`) returns `["你"]` and leaves
`zhReg.lastIndex = 1`; an immediately repeated run on the identical text
then returns `[]`, because the stale `lastIndex` makes the final
`hasZhStr` filter fail on the single-character candidate `"你"`. -/
theorem c2_not_idempotent :
    pickZhStrByAst false c2Code (.ok c2Root) = .ok (["你"], true) ∧
    pickZhStrByAst true c2Code (.ok c2Root) = .ok ([], false) ∧
    (["你"] : List String) ≠ [] :=
  ⟨rfl, rfl, by decide⟩

/-- The unit `f("你","好")` — two single-character literals. -/
def c4Code : String := "f(\"你\",\"好\")"

/-- Babel tree of `c4Code`: a call with the two literal arguments. -/
def c4Root : Node :=
  .other 0 10 (.seq (.other 0 1 .leaf) (.seq (.str 2 5 "你") (.str 6 9 "好")))

/-- Claim C4 evaluation: the candidate set of `f("你","好")` is
`["你", "好"]`, yet the returned list is only `["你"]`: the stateful
`hasZhStr` filter drops the candidate `"好"` although it is non-empty
after trimming/stripping and contains a target-script character, because
the preceding successful test left `zhReg.lastIndex = 1`. -/
theorem c4_postprocess_drops_zh_candidate :
    visit c4Code c4Root ⟨[], [], false⟩ =
      .ok ⟨[(2, 5), (6, 9)], ["你", "好"], false⟩ ∧
    pickZhStrByAst false c4Code (.ok c4Root) = .ok (["你"], false) ∧
    (∃ c ∈ "好".data, isZh c = true) ∧
    rmStrip (jsTrim "好") ≠ "" :=
  ⟨rfl, rfl, ⟨'好', by decide⟩, by decide⟩

/-- The unit `const x = "\u5f20" + y;`: the raw span of the `'+'`
expression, `"\u5f20" + y` (columns 10–22), holds no target-script
character — the literal's text is an escape — while the literal's decoded
value is `张`. -/
def c3Code : String := "const x = \"\\u5f20\" + y;"

/-- Babel tree of `c3Code`: the declarator's init is the `'+'` expression,
whose left operand is the literal with decoded value `张` at `[10, 18)`
and whose right operand is the identifier `y` at `[21, 22)`. -/
def c3Root : Node :=
  .other 0 23 (.bin 10 22 "+" (.str 10 18 "张") (.other 21 22 .leaf))

/-- Counterexample to claim C3: the `'+'` expression's whole raw span has
no target-script character, so it is claimed and never decomposed — yet
its sub-string is not lost: the literal leaf stays unclaimed, the
`StringLiteral` visitor later emits its decoded value, and the extraction
output is `["张"]`, an entry coming from inside the boring concatenation. -/
theorem c3_boring_concat_leaks_output :
    (∀ c ∈ (jsSubstring c3Code 10 22).data, isZh c = false) ∧
    pickZhStrByAst false c3Code (.ok c3Root) = .ok (["张"], true) :=
  ⟨by decide, rfl⟩

theorem hasZhStrCore_false_of_no_zh {cs : List Char}
    (h : ∀ c ∈ cs, isZh c = false) : ∀ st, (hasZhStrCore st cs).1 = false := by
  induction cs with
  | nil => intro st; rfl
  | cons c cs ih =>
    intro st
    unfold hasZhStrCore zhTest
    cases st with
    | true =>
      simp only [if_true]
      exact ih (fun x hx => h x (List.mem_cons_of_mem c hx)) false
    | false =>
      simp only [if_false, h c (List.mem_cons_self c cs), if_neg]
      exact ih (fun x hx => h x (List.mem_cons_of_mem c hx)) false

/-- Claim C3 as amended: a binary `'+'` expression whose whole raw source
span contains no target-script character is claimed, records no
candidate, and is never decomposed (the claimed set gains exactly the
node's own range, so its leaves stay unclaimed) — but the sub-strings
inside it are not necessarily lost: literal operands are still visited on
their own and may contribute entries through their decoded values, as the
counterexample's escaped literal shows. -/
theorem c3_boring_concat_claimed_not_decomposed
    (code : String) (s e : Nat) (l r : Node) (st : PickSt)
    (hu : hasUsedSet (s, e) st.used = false)
    (hs : s ≠ 0) (he : e ≠ 0)
    (hzh : ∀ c ∈ (jsSubstring code s e).data, isZh c = false) :
    visitBinNode code s e "+" l r st =
      .ok ⟨pushUsed (s, e) st.used, st.strs, (hasZhStr st.zh (jsSubstring code s e)).2⟩ := by
  unfold visitBinNode
  rw [if_neg (by rw [hu]; exact Bool.false_ne_true)]
  rw [if_neg (by rintro (h | h) <;> [exact hs h; exact he h])]
  rw [if_pos rfl]
  rw [if_neg (by rw [show (hasZhStr st.zh (jsSubstring code s e)).1 = false from
    hasZhStrCore_false_of_no_zh hzh st.zh]; exact Bool.false_ne_true)]

/-- Witness for the amended C3 at the concrete boring concatenation. -/
theorem c3_boring_concat_claimed_not_decomposed_witness :
    visitBinNode c3Code 10 22 "+" (.str 10 18 "张") (.other 21 22 .leaf) ⟨[], [], false⟩ =
      .ok ⟨pushUsed (10, 22) [], [], (hasZhStr false (jsSubstring c3Code 10 22)).2⟩ :=
  c3_boring_concat_claimed_not_decomposed c3Code 10 22 (.str 10 18 "张")
    (.other 21 22 .leaf) ⟨[], [], false⟩ rfl (by decide) (by decide) (by decide)

/-! ## File pipeline: transpilation, pre-filter, parse-failure propagation -/

/-- The diagnostic sinks: the `error.log` file (appended entries) and the
console error stream. -/
structure LogState where
  log : List String
  console : List String
  deriving DecidableEq, Repr

/-- The entry appended to `error.log` by the `catch` handler of
`transformWithEsbuild`:
`['esbuild transform error', filePath, e.message, code, '\n'.repeat(4)].join('\n')`. -/
def esbuildLogEntry (filePath msg source : String) : String :=
  String.intercalate "\n" ["esbuild transform error", filePath, msg, source, "\n\n\n\n"]

/-- The message echoed by `console.error` in the same handler. -/
def esbuildConsoleEntry (filePath msg : String) : String :=
  String.intercalate "\n" ["esbuild transform error", filePath, msg, ""]

/-- `transformWithEsbuild` of main.ts with esbuild's `transform` passed in
as its result: on success the transformed code, on failure the catch
handler appends to the log, echoes to the console, and resolves to `''`. -/
def transformWithEsbuild (result : Except String String) (filePath source : String)
    (ls : LogState) : String × LogState :=
  match result with
  | .ok codeText => (codeText, ls)
  | .error msg =>
    ("", ⟨ls.log ++ [esbuildLogEntry filePath msg source],
          ls.console ++ [esbuildConsoleEntry filePath msg]⟩)

/-- The per-file loop pushing one transformed text per script unit
(a `.vue` file yields up to three units, the script extensions one);
transpilation failures do not abort it — each unit contributes its
`transformWithEsbuild` result and processing continues with the rest. -/
def runUnits (filePath : String) : List (String × Except String String) → LogState →
    List String × LogState
  | [], ls => ([], ls)
  | (source, r) :: rest, ls =>
    let t := transformWithEsbuild r filePath source ls
    let re := runUnits filePath rest t.2
    (t.1 :: re.1, re.2)

/-- `getCodesFromFile` of main.ts: the cheap `hasZhStr` pre-filter on the
raw file text short-circuits to zero units before any unit is normalized;
otherwise each unit is transformed and the resulting texts are filtered
by the (stateful) `hasZhStr` again. -/
def getCodesFromFile (st : Bool) (filePath text : String)
    (units : List (String × Except String String)) (ls : LogState) :
    (List String × Bool) × LogState :=
  let p := hasZhStr st text
  if p.1 then
    let r := runUnits filePath units ls
    (filterZh p.2 r.1, r.2)
  else (([], p.2), ls)

/-- The `codes.map((v) => pickZhStrByAst(v))` step of `collectDirZhStr`:
there is no handler around `pickZhStrByAst`, so a parse failure of any
unit propagates and aborts the whole run. -/
def pickAllCodes (st : Bool) : List (String × Except String Node) →
    Except String (List (List String) × Bool)
  | [] => .ok ([], st)
  | (codeText, parsed) :: rest =>
    match pickZhStrByAst st codeText parsed with
    | .error msg => .error msg
    | .ok r =>
      match pickAllCodes r.2 rest with
      | .error msg => .error msg
      | .ok rr => .ok (r.1 :: rr.1, rr.2)

/-! ## Lemmas: `hasZhStr` has no false positives, and the post-processing
steps never remove target-script characters. -/

theorem exists_zh_of_hasZhStrCore {cs : List Char} :
    ∀ st, (hasZhStrCore st cs).1 = true → ∃ c ∈ cs, isZh c = true := by
  induction cs with
  | nil => intro st h; cases h
  | cons c cs ih =>
    intro st h
    unfold hasZhStrCore zhTest at h
    cases st with
    | true =>
      simp only [if_true] at h
      obtain ⟨x, hx, hzh⟩ := ih false h
      exact ⟨x, List.mem_cons_of_mem c hx, hzh⟩
    | false =>
      simp only [if_false] at h
      by_cases hc : isZh c = true
      · exact ⟨c, List.mem_cons_self c cs, hc⟩
      · rw [if_neg hc] at h
        obtain ⟨x, hx, hzh⟩ := ih false h
        exact ⟨x, List.mem_cons_of_mem c hx, hzh⟩

theorem mem_filterZh {l : List String} :
    ∀ st v, v ∈ (filterZh st l).1 → ∃ c ∈ v.data, isZh c = true := by
  induction l with
  | nil => intro st v h; cases h
  | cons w ws ih =>
    intro st v h
    simp only [filterZh] at h
    by_cases hw : (hasZhStr st w).1 = true
    · rw [if_pos hw] at h
      rcases List.mem_cons.mp h with h | h
      · subst h
        exact exists_zh_of_hasZhStrCore st hw
      · exact ih _ v h
    · rw [if_neg hw] at h
      exact ih _ v h

theorem isZh_not_ws {c : Char} (h : isZh c = true) : isJsWs c = false := by
  unfold isZh at h
  unfold isJsWs
  rw [decide_eq_true_eq] at h
  rw [decide_eq_false_iff_not]
  omega

theorem mem_dropWhile_of_mem {c : Char} {l : List Char}
    (hc : c ∈ l) (hp : isJsWs c = false) : c ∈ l.dropWhile isJsWs := by
  induction l with
  | nil => cases hc
  | cons a t ih =>
    rw [List.dropWhile_cons]
    by_cases ha : isJsWs a = true
    · rw [if_pos ha]
      rcases List.mem_cons.mp hc with h | h
      · rw [h] at hp
        rw [hp] at ha
        cases ha
      · exact ih h
    · rw [if_neg ha]
      exact hc

theorem mem_jsTrim_of_mem {c : Char} {s : String}
    (hc : c ∈ s.data) (hzh : isZh c = true) : c ∈ (jsTrim s).data := by
  unfold jsTrim
  show c ∈ ((s.data.dropWhile isJsWs).reverse.dropWhile isJsWs).reverse
  rw [List.mem_reverse]
  exact mem_dropWhile_of_mem
    (List.mem_reverse.mpr (mem_dropWhile_of_mem hc (isZh_not_ws hzh)))
    (isZh_not_ws hzh)

theorem isZh_not_brace {c : Char} (h : isZh c = true) : c ≠ '\x7b' ∧ c ≠ '\x7d' := by
  unfold isZh at h
  rw [decide_eq_true_eq] at h
  constructor <;> · rintro rfl; revert h; decide

theorem mem_drop2_of_take2 {c : Char} {l : List Char}
    (h : l.take 2 = ['\x7b', '\x7d']) (hc : c ∈ l)
    (h1 : c ≠ '\x7b') (h2 : c ≠ '\x7d') : c ∈ l.drop 2 := by
  cases l with
  | nil => simp at h
  | cons a t =>
    cases t with
    | nil =>
      have h' : [a] = ['\x7b', '\x7d'] := h
      simp at h'
    | cons b t2 =>
      have h' : [a, b] = ['\x7b', '\x7d'] := h
      injection h' with ha h'
      injection h' with hb _
      show c ∈ t2
      rcases List.mem_cons.mp hc with h | h
      · exact absurd (h.trans ha) h1
      · rcases List.mem_cons.mp h with h | h
        · exact absurd (h.trans hb) h2
        · exact h

theorem mem_rmStrip_of_mem {c : Char} {s : String}
    (hc : c ∈ s.data) (hzh : isZh c = true) : c ∈ (rmStrip s).data := by
  obtain ⟨hb1, hb2⟩ := isZh_not_brace hzh
  unfold rmStrip
  by_cases h1 : s.data.take 2 = ['\x7b', '\x7d']
  · rw [if_pos h1]
    exact mem_drop2_of_take2 h1 hc hb1 hb2
  · rw [if_neg h1]
    by_cases h2 : s.data.drop (s.data.length - 2) = ['\x7b', '\x7d']
    · rw [if_pos h2]
      show c ∈ s.data.take (s.data.length - 2)
      have hsplit := List.take_append_drop (s.data.length - 2) s.data
      rw [← hsplit] at hc
      rcases List.mem_append.mp hc with h | h
      · exact h
      · rw [h2] at h
        rcases List.mem_cons.mp h with h | h
        · exact absurd h hb1
        · rcases List.mem_cons.mp h with h | h
          · exact absurd h hb2
          · cases h
    · rw [if_neg h2]
      exact hc

/-- Claim C6: a file whose raw text contains no target-script character
yields zero units — the pre-filter short-circuits before any unit is
normalized, so the log is untouched — and no string lacking a
target-script character ever appears in the extractor's final output
(the `hasZhStr` filter has no false positives, and trimming and
placeholder-stripping never remove target-script characters). -/
theorem c6_no_zh_no_output :
    (∀ (st : Bool) (filePath text : String)
      (units : List (String × Except String String)) (ls : LogState),
      (∀ c ∈ text.data, isZh c = false) →
      getCodesFromFile st filePath text units ls = (([], (hasZhStr st text).2), ls)) ∧
    (∀ (st0 : Bool) (code : String) (root : Node) (out : List String) (st1 : Bool),
      pickZhStrByAst st0 code (.ok root) = .ok (out, st1) →
      ∀ v ∈ out, ∃ c ∈ v.data, isZh c = true) := by
  constructor
  · intro st filePath text units ls h
    simp only [getCodesFromFile]
    rw [if_neg (by rw [show (hasZhStr st text).1 = false from
      hasZhStrCore_false_of_no_zh h st]; exact Bool.false_ne_true)]
  · intro st0 code root out st1 hok v hv
    simp only [pickZhStrByAst] at hok
    rcases hvis : visit code root ⟨[], [], st0⟩ with msg | st
    · rw [hvis] at hok
      cases hok
    · rw [hvis] at hok
      injection hok with hok
      have hout : out = ((filterZh st.zh st.strs).1.map
          (fun v => rmStrip (jsTrim v))).filter (fun v => v != "") :=
        (congrArg Prod.fst hok).symm
      rw [hout] at hv
      have hv' := List.mem_of_mem_filter hv
      obtain ⟨w, hw, hwv⟩ := List.mem_map.mp hv'
      obtain ⟨c, hc, hczh⟩ := mem_filterZh _ w hw
      exact ⟨c, hwv ▸ mem_rmStrip_of_mem (mem_jsTrim_of_mem hc hczh) hczh, hczh⟩

/-- Witness for C6: an ASCII-only file is skipped with zero units and an
untouched log, and the output `["你"]` of a concrete extraction indeed
consists of target-script-bearing strings. -/
theorem c6_no_zh_no_output_witness :
    getCodesFromFile false "a.ts" "abc" [("x", .error "boom")] ⟨[], []⟩ =
      (([], false), ⟨[], []⟩) ∧
    (∃ c ∈ "你".data, isZh c = true) :=
  ⟨c6_no_zh_no_output.1 false "a.ts" "abc" [("x", .error "boom")] ⟨[], []⟩ (by decide),
   c6_no_zh_no_output.2 false "\"你\"" (.other 0 4 (.str 0 3 "你")) ["你"] true rfl
     "你" (by decide)⟩

/-- Claim C7: a transpilation failure is recovered locally — the failing
unit contributes the empty transformed result, the error entry is
appended to the diagnostic log and echoed to the console, and the
remaining units are still processed — whereas a parse failure of the
syntax-tree parser inside `pickZhStrByAst` has no handler: it propagates
out of the extraction call and aborts the per-run unit loop. -/
theorem c7_error_taxonomy (filePath source msg : String)
    (rest : List (String × Except String String)) (ls : LogState)
    (st : Bool) (codeText pmsg : String) (prest : List (String × Except String Node)) :
    transformWithEsbuild (.error msg) filePath source ls =
      ("", ⟨ls.log ++ [esbuildLogEntry filePath msg source],
            ls.console ++ [esbuildConsoleEntry filePath msg]⟩) ∧
    runUnits filePath ((source, .error msg) :: rest) ls =
      ("" :: (runUnits filePath rest ⟨ls.log ++ [esbuildLogEntry filePath msg source],
          ls.console ++ [esbuildConsoleEntry filePath msg]⟩).1,
        (runUnits filePath rest ⟨ls.log ++ [esbuildLogEntry filePath msg source],
          ls.console ++ [esbuildConsoleEntry filePath msg]⟩).2) ∧
    pickZhStrByAst st codeText (.error pmsg) = .error pmsg ∧
    pickAllCodes st ((codeText, .error pmsg) :: prest) = .error pmsg :=
  ⟨rfl, rfl, rfl, rfl⟩

theorem mem_addStr_iff (v x : String) (l : List String) :
    v ∈ addStr x l ↔ v ∈ l ∨ v = x := by
  unfold addStr
  by_cases h : x ∈ l
  · rw [if_pos h]
    exact ⟨Or.inl, fun hv => hv.elim id (fun he => he ▸ h)⟩
  · rw [if_neg h]
    rw [List.mem_append, List.mem_singleton]

/-- The expression `"张" + "三" + name` as babel parses it: a left-skewed
`'+'` tree with the identifier `name` as right operand. -/
def c1Expr (S3 E3 S1 E1 SA EA SB EB SN EN : Nat) : Node :=
  .bin S3 E3 "+" (.bin S1 E1 "+" (.str SA EA "张") (.str SB EB "三"))
    (.other SN EN .leaf)

/-- Claim C1 as amended: when the traversal reaches an occurrence of
`"张" + "三" + name` (raw span exactly that text, so the target-script
check passes at either regex state) that is not yet claimed — so not
folded into an enclosing `'+'` chain's own candidate — and whose start
offset is nonzero — so the visitor's falsy-offset check does not abort
the extraction — the `BinaryExpression` visitor records the single
flattened candidate `张三{}` — trimmed literal values joined with a
placeholder for the identifier, no separator — and the whole subtree
contributes nothing else: the intermediate `'+'` node and the literal
leaves are claimed during flattening, so the later literal visits are
skipped, and in particular `张` and `三` are not additionally recorded
when they were not already present.  (The counterexample shows both
excluded cases diverge on the code: at offset 0 the extraction throws
and records nothing, and nested under an outer `'+'` the recorded
candidate is `{}张三{}`, not `张三{}`.) -/
theorem c1_concat_flattening (code : String)
    (S3 E3 S1 E1 SA EA SB EB SN EN : Nat) (st : PickSt)
    (hu : hasUsedSet (S3, E3) st.used = false)
    (hs : S3 ≠ 0) (he : E3 ≠ 0)
    (hsub : jsSubstring code S3 E3 = "\"张\" + \"三\" + name") :
    ∃ used',
      visit code (c1Expr S3 E3 S1 E1 SA EA SB EB SN EN) st =
        .ok ⟨used', addStr "张三\x7b\x7d" st.strs, true⟩ ∧
      ("张" ∉ st.strs → "张" ∉ addStr "张三\x7b\x7d" st.strs) ∧
      ("三" ∉ st.strs → "三" ∉ addStr "张三\x7b\x7d" st.strs) := by
  have hzh2 : hasZhStr st.zh "\"张\" + \"三\" + name" = (true, true) := by
    cases hz : st.zh <;> decide
  have hpush3 : pushUsed (S3, E3) (pushUsed (S3, E3) st.used) =
      pushUsed (S3, E3) st.used :=
    pushUsed_of_mem (mem_pushUsed_self _ _)
  have hflat : flatBinaryExpression (fun m u => pushUsed (rangeOf m) u)
      (.bin S3 E3 "+" (.bin S1 E1 "+" (.str SA EA "张") (.str SB EB "三"))
        (.other SN EN .leaf)) (pushUsed (S3, E3) st.used) =
      ([.str SA EA "张", .str SB EB "三", .other SN EN .leaf],
        pushUsed (S1, E1) (pushUsed (S3, E3) st.used)) := by
    simp [flatBinaryExpression, rangeOf, hpush3]
  have hfold : List.foldl
      (fun (acc : String × List (Nat × Nat)) m =>
        let t := leafText m acc.2
        (acc.1 ++ t.1, t.2))
      ("", pushUsed (S1, E1) (pushUsed (S3, E3) st.used))
      [.str SA EA "张", .str SB EB "三", .other SN EN .leaf] =
      ("张三\x7b\x7d", pushUsed (SB, EB) (pushUsed (SA, EA)
        (pushUsed (S1, E1) (pushUsed (S3, E3) st.used)))) := by
    simp only [List.foldl_cons, List.foldl_nil, leafText]
    refine Prod.ext ?_ rfl
    show ("" : String) ++ jsTrim "张" ++ jsTrim "三" ++ "\x7b\x7d" = "张三\x7b\x7d"
    decide
  have hbin : visitBinNode code S3 E3 "+"
      (.bin S1 E1 "+" (.str SA EA "张") (.str SB EB "三")) (.other SN EN .leaf) st =
      .ok ⟨pushUsed (SB, EB) (pushUsed (SA, EA)
          (pushUsed (S1, E1) (pushUsed (S3, E3) st.used))),
        addStr "张三\x7b\x7d" st.strs, true⟩ := by
    simp [visitBinNode, hu, hs, he, hsub, hzh2, hflat, hfold]
  have hmem1 : hasUsedSet (S1, E1) (pushUsed (SB, EB) (pushUsed (SA, EA)
      (pushUsed (S1, E1) (pushUsed (S3, E3) st.used)))) = true :=
    (hasUsedSet_iff _ _).mpr (mem_pushUsed_of_mem (mem_pushUsed_of_mem
      (mem_pushUsed_self _ _)))
  have hmemA : hasUsedSet (SA, EA) (pushUsed (SB, EB) (pushUsed (SA, EA)
      (pushUsed (S1, E1) (pushUsed (S3, E3) st.used)))) = true :=
    (hasUsedSet_iff _ _).mpr (mem_pushUsed_of_mem (mem_pushUsed_self _ _))
  have hmemB : hasUsedSet (SB, EB) (pushUsed (SB, EB) (pushUsed (SA, EA)
      (pushUsed (S1, E1) (pushUsed (S3, E3) st.used)))) = true :=
    (hasUsedSet_iff _ _).mpr (mem_pushUsed_self _ _)
  have hstrA : visit code (.str SA EA "张")
      ⟨pushUsed (SB, EB) (pushUsed (SA, EA) (pushUsed (S1, E1)
        (pushUsed (S3, E3) st.used))), addStr "张三\x7b\x7d" st.strs, true⟩ =
      .ok ⟨pushUsed (SB, EB) (pushUsed (SA, EA) (pushUsed (S1, E1)
        (pushUsed (S3, E3) st.used))), addStr "张三\x7b\x7d" st.strs, true⟩ := by
    simp [visit, visitStrNode, hmemA]
  have hstrB : visit code (.str SB EB "三")
      ⟨pushUsed (SB, EB) (pushUsed (SA, EA) (pushUsed (S1, E1)
        (pushUsed (S3, E3) st.used))), addStr "张三\x7b\x7d" st.strs, true⟩ =
      .ok ⟨pushUsed (SB, EB) (pushUsed (SA, EA) (pushUsed (S1, E1)
        (pushUsed (S3, E3) st.used))), addStr "张三\x7b\x7d" st.strs, true⟩ := by
    simp [visit, visitStrNode, hmemB]
  have hbinInner : visitBinNode code S1 E1 "+" (.str SA EA "张") (.str SB EB "三")
      ⟨pushUsed (SB, EB) (pushUsed (SA, EA) (pushUsed (S1, E1)
        (pushUsed (S3, E3) st.used))), addStr "张三\x7b\x7d" st.strs, true⟩ =
      .ok ⟨pushUsed (SB, EB) (pushUsed (SA, EA) (pushUsed (S1, E1)
        (pushUsed (S3, E3) st.used))), addStr "张三\x7b\x7d" st.strs, true⟩ := by
    simp [visitBinNode, hmem1]
  have hinner : visit code (.bin S1 E1 "+" (.str SA EA "张") (.str SB EB "三"))
      ⟨pushUsed (SB, EB) (pushUsed (SA, EA) (pushUsed (S1, E1)
        (pushUsed (S3, E3) st.used))), addStr "张三\x7b\x7d" st.strs, true⟩ =
      .ok ⟨pushUsed (SB, EB) (pushUsed (SA, EA) (pushUsed (S1, E1)
        (pushUsed (S3, E3) st.used))), addStr "张三\x7b\x7d" st.strs, true⟩ := by
    show (match visitBinNode code S1 E1 "+" (.str SA EA "张") (.str SB EB "三")
        ⟨pushUsed (SB, EB) (pushUsed (SA, EA) (pushUsed (S1, E1)
          (pushUsed (S3, E3) st.used))), addStr "张三\x7b\x7d" st.strs, true⟩ with
      | Except.error msg => Except.error msg
      | Except.ok st1 =>
        match visit code (.str SA EA "张") st1 with
        | Except.error msg => Except.error msg
        | Except.ok st2 => visit code (.str SB EB "三") st2) = _
    rw [hbinInner]
    show (match visit code (.str SA EA "张")
        ⟨pushUsed (SB, EB) (pushUsed (SA, EA) (pushUsed (S1, E1)
          (pushUsed (S3, E3) st.used))), addStr "张三\x7b\x7d" st.strs, true⟩ with
      | Except.error msg => Except.error msg
      | Except.ok st2 => visit code (.str SB EB "三") st2) = _
    rw [hstrA]
    exact hstrB
  refine ⟨pushUsed (SB, EB) (pushUsed (SA, EA)
      (pushUsed (S1, E1) (pushUsed (S3, E3) st.used))), ?_, ?_, ?_⟩
  · show (match visitBinNode code S3 E3 "+"
        (.bin S1 E1 "+" (.str SA EA "张") (.str SB EB "三")) (.other SN EN .leaf) st with
      | Except.error msg => Except.error msg
      | Except.ok st1 =>
        match visit code (.bin S1 E1 "+" (.str SA EA "张") (.str SB EB "三")) st1 with
        | Except.error msg => Except.error msg
        | Except.ok st2 => visit code (.other SN EN .leaf) st2) = _
    rw [hbin]
    show (match visit code (.bin S1 E1 "+" (.str SA EA "张") (.str SB EB "三"))
        ⟨pushUsed (SB, EB) (pushUsed (SA, EA) (pushUsed (S1, E1)
          (pushUsed (S3, E3) st.used))), addStr "张三\x7b\x7d" st.strs, true⟩ with
      | Except.error msg => Except.error msg
      | Except.ok st2 => visit code (.other SN EN .leaf) st2) = _
    rw [hinner]
    rfl
  · intro h hmem
    rcases (mem_addStr_iff _ _ _).mp hmem with h' | h'
    · exact h h'
    · exact absurd h' (by decide)
  · intro h hmem
    rcases (mem_addStr_iff _ _ _).mp hmem with h' | h'
    · exact h h'
    · exact absurd h' (by decide)

/-- Witness for C1 at the unit `const x = "张" + "三" + name;` with the
babel offsets of that text, starting from a fresh extraction state. -/
theorem c1_concat_flattening_witness :
    ∃ used',
      visit "const x = \"张\" + \"三\" + name;"
        (c1Expr 10 26 10 19 10 13 16 19 22 26) ⟨[], [], false⟩ =
        .ok ⟨used', addStr "张三\x7b\x7d" [], true⟩ ∧
      ("张" ∉ ([] : List String) → "张" ∉ addStr "张三\x7b\x7d" []) ∧
      ("三" ∉ ([] : List String) → "三" ∉ addStr "张三\x7b\x7d" []) :=
  c1_concat_flattening "const x = \"张\" + \"三\" + name;"
    10 26 10 19 10 13 16 19 22 26 ⟨[], [], false⟩ rfl
    (by decide) (by decide) (by decide)

/-- Counterexample to claim C1 as frozen ("for every extraction of a unit
containing the expression"): two units containing `"张" + "三" + name` on
which the extractor does not record the candidate `张三{}`.  First, the
unit that is exactly the expression `"张" + "三" + name` (the spec's own
test input): its outer `'+'` node starts at offset `0`, which is falsy,
so the `BinaryExpression` visitor throws and the extraction aborts with
nothing recorded.  Second, the unit `const x = 1 + ("张" + "三" + name);`
where the occurrence is nested in a larger `'+'` chain: the outer
expression is flattened first, claiming the occurrence, and the single
recorded candidate is `{}张三{}` — `张三{}` is never recorded. -/
theorem c1_zero_offset_or_nested_counterexample :
    pickZhStrByAst false "\"张\" + \"三\" + name"
        (.ok (.other 0 16 (c1Expr 0 16 0 9 0 3 6 9 12 16))) =
      .error "node.start or node.end is undefined" ∧
    visit "const x = 1 + (\"张\" + \"三\" + name);"
        (.other 0 33 (.bin 10 32 "+" (.other 10 11 .leaf)
          (c1Expr 15 31 15 24 15 18 21 24 27 31))) ⟨[], [], false⟩ =
      .ok ⟨[(10, 32), (15, 31), (15, 24), (15, 18), (21, 24)],
        ["\x7b\x7d张三\x7b\x7d"], true⟩ ∧
    "张三\x7b\x7d" ∉ ["\x7b\x7d张三\x7b\x7d"] :=
  ⟨rfl, rfl, by decide⟩
